import Mathlib

/-!
Verification development for `option_file_parser.cpp`, a tool that reads,
writes, or deletes `key=value` pairs in a flat option file.

Lines and keys are modelled as `List Char`.  The C++ helpers `ltrim`,
`rtrim`, `trim` (regex `^\s+` / `\s+$` removal), the lambda `lineHasKey`,
and the three processing modes of `main` are embedded as pure functions.
`std::map` with `emplace` is modelled as an association list where an
insertion is dropped when the key is already present (that is exactly the
observable behaviour of `emplace`), and `std::list::unique` is modelled by
`collapseRuns` / `dedupRuns`, which collapse consecutive runs only.
-/

namespace OFP

/-- Lines, keys and values are raw character strings. -/
abbrev Str := List Char

/-- Whitespace class of the C++ regex `\s` used by `ltrim` / `rtrim`. -/
def isSpace (c : Char) : Bool :=
  c = ' ' || c = '\t' || c = '\n' || c = '\x0b' || c = '\x0c' || c = '\r'

/-- `ltrim`: `regex_replace(s, "^\s+", "")` removes the leading whitespace run. -/
def ltrim (s : Str) : Str := s.dropWhile isSpace

/-- `rtrim`: `regex_replace(s, "\s+$", "")` removes the trailing whitespace run. -/
def rtrim (s : Str) : Str := (s.reverse.dropWhile isSpace).reverse

/-- `trim(s) = ltrim(rtrim(s))`. -/
def trim (s : Str) : Str := ltrim (rtrim s)

/-- `s.find_first_of("=", 0)`: index of the first `'='`, `none` for `npos`. -/
def findEq : Str → Option Nat
  | [] => none
  | c :: cs => if c = '=' then some 0 else (findEq cs).map (· + 1)

/-- The lambda `lineHasKey` of `main`: returns the delimiter position when
the line has a `'='` that is neither first nor last character and the
trimmed text before it equals `key`; otherwise `none` (`npos`). -/
def lineHasKey (line key : Str) : Option Nat :=
  match findEq line with
  | some p =>
      if 0 < p ∧ p < line.length - 1 then
        if trim (line.take p) = key then some p else none
      else none
  | none => none

/-- The unique key a line can match: the trimmed text before its first
`'='` when the delimiter position is valid.  `lineHasKey line key` succeeds
exactly when `keyOf line = some key`. -/
def keyOf (line : Str) : Option Str :=
  match findEq line with
  | some p =>
      if 0 < p ∧ p < line.length - 1 then some (trim (line.take p)) else none
  | none => none

/-- `input_line[0] == '#'` (an empty line yields `'\0'`, never a comment). -/
def isComment (line : Str) : Bool := line.head? = some '#'

/-! ### Read mode (lines 208-227 of the source) -/

/-- `std::map::emplace`: insert `(k, v)` only when `k` is not yet present. -/
def emplace (m : List (Str × Str)) (k v : Str) : List (Str × Str) :=
  if m.any (fun q => q.1 = k) then m else m ++ [(k, v)]

/-- Body of the inner `for (auto& key : keysToReadOrDelete)` loop of read
mode: on a match, `emplace` the trimmed value substring for the key. -/
def recordLine (line : Str) (m : List (Str × Str)) (k : Str) :
    List (Str × Str) :=
  match lineHasKey line k with
  | some p => emplace m k (trim (line.drop (p + 1)))
  | none => m

/-- Processing of one input line in read mode: skip comment lines, else try
every requested key against the line. -/
def scanLine (keys : List Str) (m : List (Str × Str)) (line : Str) :
    List (Str × Str) :=
  if isComment line then m else keys.foldl (recordLine line) m

/-- The `keyValueMap` built by the read-mode `while (getline)` loop. -/
def scanLines (lines keys : List Str) : List (Str × Str) :=
  lines.foldl (scanLine keys) []

/-- `keyValueMap[key]`: the stored value, or the empty string when absent
(`operator[]` default-constructs the value). -/
def mapGet (m : List (Str × Str)) (k : Str) : Str :=
  match m.find? (fun q => q.1 = k) with
  | some q => q.2
  | none => []

/-- Read mode output: one value per requested key, in request order. -/
def readMode (lines keys : List Str) : List Str :=
  keys.map (fun k => mapGet (scanLines lines keys) k)

/-! ### Write mode (lines 243-260) -/

/-- The replacement line `it->first + "=" + it->second`. -/
def toLine (q : Str × Str) : Str := q.1 ++ '=' :: q.2

/-- The inner write loop over the pending write list for one line: on a
match the line is replaced by `key=value`, the pair is erased, and the scan
continues over the remaining pairs against the new line content.  Returns
the final line and the remaining pending pairs. -/
def applyLine : Str → List (Str × Str) → Str × List (Str × Str)
  | line, [] => (line, [])
  | line, q :: ws =>
      match lineHasKey line q.1 with
      | some _ => applyLine (toLine q) ws
      | none =>
          let r := applyLine line ws
          (r.1, q :: r.2)

/-- The outer write loop over all file lines, threading the pending pairs. -/
def writeLines : List Str → List (Str × Str) → List Str × List (Str × Str)
  | [], ws => ([], ws)
  | l :: ls, ws =>
      let r := applyLine l ws
      let s := writeLines ls r.2
      (r.1 :: s.1, s.2)

/-- Write mode: rewrite matching lines, then append `key=value` for every
pair left unconsumed. -/
def applyWrite (lines : List Str) (ws : List (Str × Str)) : List Str :=
  (writeLines lines ws).1 ++ (writeLines lines ws).2.map toLine

/-! ### Delete mode (lines 261-279) -/

/-- The inner delete loop: erase every line matching the key. -/
def removeKey : List Str → Str → List Str
  | [], _ => []
  | l :: ls, k =>
      if (lineHasKey l k).isSome then removeKey ls k else l :: removeKey ls k

/-- Helper for `dedupRuns`: `cur` is the last retained key; an element equal
to it is dropped, any other element is retained and becomes the comparand. -/
def dedupAux (cur : Str) : List Str → List Str
  | [] => []
  | k :: ks => if k = cur then dedupAux cur ks else k :: dedupAux k ks

/-- `keysToReadOrDelete.unique` (line 265): `std::list::unique` keeps the
first element of every consecutive group of equal elements, comparing each
element with the last retained one. -/
def dedupRuns : List Str → List Str
  | [] => []
  | k :: ks => k :: dedupAux k ks

/-- Delete mode: for each (run-deduplicated) key, erase all matching lines. -/
def applyDelete (lines keys : List Str) : List Str :=
  (dedupRuns keys).foldl removeKey lines

/-! ### Command-line write-set construction (lines 144-161) -/

/-- Helper for `collapseRuns`: `cur` is the key of the last retained pair;
a pair whose key equals it is dropped, any other pair is retained and its
key becomes the comparand. -/
def collapseAux (cur : Str) : List (Str × Str) → List (Str × Str)
  | [] => []
  | q :: ws => if q.1 = cur then collapseAux cur ws else q :: collapseAux q.1 ws

/-- `keysToWrite.unique(...)` (line 158): `std::list::unique` with a
predicate comparing the key components — collapses consecutive runs of
pairs with equal keys to the run's first pair, comparing each pair with the
last retained one. -/
def collapseRuns : List (Str × Str) → List (Str × Str)
  | [] => []
  | q :: ws => q :: collapseAux q.1 ws

/-- Parsing of one write-mode positional argument (lines 144-154): it must
contain a `'='` that is neither first nor last character; key and value are
the trimmed parts around the first `'='`. -/
def parseWriteArg (arg : Str) : Option (Str × Str) :=
  match findEq arg with
  | some p =>
      if 0 < p ∧ p < arg.length - 1 then
        some (trim (arg.take p), trim (arg.drop (p + 1)))
      else none
  | none => none

/-- Parsing of all write-mode positional arguments; `none` on the first
malformed argument (the program exits with a usage error there). -/
def parseWriteArgs : List Str → Option (List (Str × Str))
  | [] => some []
  | a :: as =>
      match parseWriteArg a with
      | some q => (parseWriteArgs as).map (q :: ·)
      | none => none

/-- The `keysToWrite` list as it stands after line 161: parsed pairs with
consecutive duplicate keys collapsed. -/
def buildWriteSet (args : List Str) : Option (List (Str × Str)) :=
  (parseWriteArgs args).map collapseRuns

/-! ### The file-processing stage of `main` (lines 189-287) -/

/-- Source enum (line 30). -/
inductive ModifyKeysMode
  | read
  | write
  | remove
deriving DecidableEq

/-- Observable outcome of the file-processing stage: process exit code,
whether the output `ofstream` was ever constructed, the lines written back
(if any), and the standard-output lines. -/
structure Outcome where
  exitCode : Int
  outputAttempted : Bool
  written : Option (List Str)
  stdout : List Str
deriving DecidableEq

/-- Lines 204-287 of `main`: `input` is `none` when the input file fails to
open (the code only prints a message there and falls through to
`return 0`), otherwise the file's lines; `outOk` tells whether the output
`ofstream` opens successfully in write/delete mode. -/
def fileStage (mode : ModifyKeysMode) (keysRD : List Str)
    (ws : List (Str × Str)) (input : Option (List Str)) (outOk : Bool) :
    Outcome :=
  match input with
  | none => ⟨0, false, none, []⟩
  | some lines =>
      match mode with
      | .read => ⟨0, false, none, readMode lines keysRD⟩
      | .write =>
          if outOk then ⟨0, true, some (applyWrite lines ws), []⟩
          else ⟨-1, true, none, []⟩
      | .remove =>
          if outOk then ⟨0, true, some (applyDelete lines keysRD), []⟩
          else ⟨-1, true, none, []⟩

/-! ### The part of a write that survives a re-scan: keys that are
non-empty, stable under `trim`, and free of the delimiter. -/

/-- A key as produced by a well-formed write argument whose trimming lost
nothing: non-empty, `trim`-stable and without the delimiter character. -/
def goodKey (k : Str) : Prop := k ≠ [] ∧ trim k = k ∧ '=' ∉ k

instance (k : Str) : Decidable (goodKey k) :=
  inferInstanceAs (Decidable (_ ∧ _ ∧ _))

/-! ### Basic facts about matching -/

theorem lineHasKey_isSome_iff {line key : Str} :
    (lineHasKey line key).isSome = true ↔ keyOf line = some key := by
  unfold lineHasKey keyOf
  cases findEq line with
  | none => simp
  | some p =>
      by_cases h : 0 < p ∧ p < line.length - 1
      · by_cases ht : trim (line.take p) = key
        · simp [h, ht]
        · simp [h, ht]
      · simp [h]

theorem lineHasKey_eq_none_iff {line key : Str} :
    lineHasKey line key = none ↔ keyOf line ≠ some key := by
  constructor
  · intro h hk
    have hs := lineHasKey_isSome_iff.mpr hk
    rw [h] at hs
    exact absurd hs (by simp)
  · intro h
    cases hx : lineHasKey line key with
    | none => rfl
    | some p => exact absurd (lineHasKey_isSome_iff.mp (by simp [hx])) h

theorem findEq_append_of_not_mem {k : Str} (h : '=' ∉ k) (v : Str) :
    findEq (k ++ '=' :: v) = some k.length := by
  induction k with
  | nil => simp [findEq]
  | cons c cs ih =>
      have hc : ¬ c = '=' := fun e => h (e ▸ List.mem_cons_self c cs)
      have hcs : '=' ∉ cs := fun m => h (List.mem_cons_of_mem _ m)
      simp [findEq, hc, ih hcs]

theorem keyOf_toLine {k v : Str} (hk : goodKey k) (hv : v ≠ []) :
    keyOf (toLine (k, v)) = some k := by
  obtain ⟨hne, htr, hmem⟩ := hk
  have h0 : 0 < k.length := List.length_pos.mpr hne
  have hv0 : 0 < v.length := List.length_pos.mpr hv
  unfold keyOf toLine
  rw [findEq_append_of_not_mem hmem]
  have h1 : k.length < (k ++ '=' :: v).length - 1 := by
    simp only [List.length_append, List.length_cons]
    omega
  simp [h0, h1, List.take_left, htr, hv]

theorem lineHasKey_toLine_self {k v : Str} (hk : goodKey k) (hv : v ≠ []) :
    (lineHasKey (toLine (k, v)) k).isSome = true :=
  lineHasKey_isSome_iff.mpr (keyOf_toLine hk hv)

theorem lineHasKey_toLine_ne {k v k' : Str} (hk : goodKey k) (hv : v ≠ [])
    (hne : k' ≠ k) : lineHasKey (toLine (k, v)) k' = none := by
  rw [lineHasKey_eq_none_iff, keyOf_toLine hk hv]
  intro e
  exact hne (Option.some.inj e).symm

/-! ### Comment lines -/

theorem isSpace_hash : isSpace '#' = false := rfl

theorem rtrim_cons_of_not_space {c : Char} (h : isSpace c = false) (s : Str) :
    rtrim (c :: s) = c :: rtrim s := by
  unfold rtrim
  rw [List.reverse_cons, List.dropWhile_append]
  by_cases he : (s.reverse.dropWhile isSpace).isEmpty
  · simp [he, h, List.isEmpty_iff.mp he]
  · simp [he]

theorem trim_cons_of_not_space {c : Char} (h : isSpace c = false) (s : Str) :
    trim (c :: s) = c :: rtrim s := by
  unfold trim ltrim
  rw [rtrim_cons_of_not_space h, List.dropWhile_cons_of_neg]
  simp [h]

/-- A key extracted from a comment line necessarily begins with `'#'`:
the delimiter position is positive, so the trimmed prefix keeps the
leading `'#'`. -/
theorem keyOf_comment_head {line k : Str} (hc : isComment line = true)
    (hk : keyOf line = some k) : k.head? = some '#' := by
  unfold isComment at hc
  cases line with
  | nil => simp at hc
  | cons c rest =>
      have hcc : c = '#' := by simpa using hc
      subst hcc
      unfold keyOf at hk
      cases hf : findEq ('#' :: rest) with
      | none =>
          rw [hf] at hk
          exact absurd hk (by simp)
      | some p =>
          rw [hf] at hk
          have hk' : (if 0 < p ∧ p < ('#' :: rest).length - 1 then
              some (trim (List.take p ('#' :: rest))) else none) = some k := hk
          by_cases hcond : 0 < p ∧ p < ('#' :: rest).length - 1
          · rw [if_pos hcond] at hk'
            obtain ⟨hp, _⟩ := hcond
            have htake : ('#' :: rest).take p = '#' :: rest.take (p - 1) := by
              cases p with
              | zero => omega
              | succ n => simp [List.take]
            rw [htake, trim_cons_of_not_space isSpace_hash] at hk'
            rw [← Option.some.inj hk']
            rfl
          · rw [if_neg hcond] at hk'
            exact absurd hk' (by simp)

/-- A comment line never matches a key that does not itself begin
with `'#'`. -/
theorem lineHasKey_comment {line k : Str} (hc : isComment line = true)
    (hk : k.head? ≠ some '#') : lineHasKey line k = none := by
  rw [lineHasKey_eq_none_iff]
  intro h
  exact hk (keyOf_comment_head hc h)

/-! ### Read-mode characterisation: the map lookup yields the value of the
first matching non-comment line. -/

/-- The trimmed value a single line contributes for a key, if any. -/
def lineVal (line k : Str) : Option Str :=
  (lineHasKey line k).map (fun p => trim (line.drop (p + 1)))

/-- The trimmed value of the first non-comment line matching `key`, if any
line matches at all. -/
def firstValO (lines : List Str) (key : Str) : Option Str :=
  match lines with
  | [] => none
  | l :: ls =>
      if isComment l then firstValO ls key
      else
        match lineHasKey l key with
        | some p => some (trim (l.drop (p + 1)))
        | none => firstValO ls key

theorem find?_emplace (m : List (Str × Str)) (k' v' k : Str) :
    (emplace m k' v').find? (fun q => q.1 = k) =
      ((m.find? (fun q => q.1 = k)).or
        (if k' = k then some (k', v') else none)) := by
  unfold emplace
  by_cases hp : m.any (fun q => q.1 = k')
  · rw [if_pos hp]
    by_cases hkk : k' = k
    · subst hkk
      obtain ⟨q, hq, hqk⟩ := List.any_eq_true.mp hp
      cases hfm : m.find? (fun r => r.1 = k') with
      | none =>
          rw [List.find?_eq_none] at hfm
          exact absurd hqk (by simpa using hfm q hq)
      | some r => simp
    · simp [hkk, Option.or_none]
  · rw [if_neg hp, List.find?_append]
    congr 1
    by_cases hkk : k' = k <;> simp [List.find?, hkk]

theorem find?_recordLine (line : Str) (m : List (Str × Str)) (k0 k : Str) :
    (recordLine line m k0).find? (fun q => q.1 = k) =
      (m.find? (fun q => q.1 = k)).or
        (if k0 = k then (lineVal line k).map (fun v => (k, v)) else none) := by
  unfold recordLine lineVal
  cases h : lineHasKey line k0 with
  | none =>
      by_cases hkk : k0 = k
      · subst hkk
        rw [h]
        simp [Option.or_none]
      · simp [hkk, Option.or_none]
  | some p =>
      rw [find?_emplace]
      by_cases hkk : k0 = k
      · subst hkk
        rw [h]
        simp
      · simp [hkk]

theorem find?_foldl_recordLine (line : Str) (ks : List Str) (k : Str)
    (m : List (Str × Str)) :
    ((ks.foldl (recordLine line) m).find? (fun q => q.1 = k)) =
      (m.find? (fun q => q.1 = k)).or
        (if k ∈ ks then (lineVal line k).map (fun v => (k, v)) else none) := by
  induction ks generalizing m with
  | nil => simp [Option.or_none]
  | cons k0 ks ih =>
      rw [List.foldl_cons, ih, find?_recordLine, Option.or_assoc]
      congr 1
      by_cases h0 : k0 = k
      · subst h0
        cases hX : (lineVal line k0).map (fun v => (k0, v)) <;>
          simp [List.mem_cons, hX]
      · have h0' : ¬ k = k0 := fun e => h0 e.symm
        simp [h0, h0', List.mem_cons]

theorem find?_scanLine (ks : List Str) (m : List (Str × Str)) (line k : Str)
    (hk : k ∈ ks) :
    ((scanLine ks m line).find? (fun q => q.1 = k)) =
      (m.find? (fun q => q.1 = k)).or
        (if isComment line then none
         else (lineVal line k).map (fun v => (k, v))) := by
  unfold scanLine
  by_cases hc : isComment line
  · simp [hc, Option.or_none]
  · rw [if_neg hc, find?_foldl_recordLine, if_pos hk]
    simp [hc]

theorem find?_foldl_scanLine (lines ks : List Str) (k : Str) (hk : k ∈ ks)
    (m : List (Str × Str)) :
    ((lines.foldl (scanLine ks) m).find? (fun q => q.1 = k)) =
      (m.find? (fun q => q.1 = k)).or
        ((firstValO lines k).map (fun v => (k, v))) := by
  induction lines generalizing m with
  | nil => simp [firstValO, Option.or_none]
  | cons l ls ih =>
      rw [List.foldl_cons, ih, find?_scanLine ks m l k hk, Option.or_assoc]
      congr 1
      have hfv : firstValO (l :: ls) k =
          if isComment l then firstValO ls k
          else
            match lineHasKey l k with
            | some p => some (trim (l.drop (p + 1)))
            | none => firstValO ls k := rfl
      by_cases hc : isComment l
      · rw [hfv, if_pos hc]
        simp [hc]
      · rw [hfv, if_neg hc]
        unfold lineVal
        rw [if_neg hc]
        cases h : lineHasKey l k <;> simp [h]

/-- The read-mode map lookup is the value of the first matching non-comment
line (or the empty string when no line matches): `std::map::emplace` never
overwrites an existing entry. -/
theorem mapGet_scanLines (lines ks : List Str) (k : Str) (hk : k ∈ ks) :
    mapGet (scanLines lines ks) k = (firstValO lines k).getD [] := by
  unfold mapGet scanLines
  rw [find?_foldl_scanLine lines ks k hk []]
  cases firstValO lines k <;> simp [List.find?]

/-- No matching line at all means no recorded value. -/
theorem firstValO_eq_none {lines : List Str} {k : Str}
    (h : ∀ l ∈ lines, lineHasKey l k = none) : firstValO lines k = none := by
  induction lines with
  | nil => rfl
  | cons l ls ih =>
      have htail := ih (fun x hx => h x (List.mem_cons_of_mem _ hx))
      unfold firstValO
      rw [h l (List.mem_cons_self l ls)]
      by_cases hc : isComment l <;> simp [hc, htail]

/-- Comment lines contribute nothing to the read-mode scan. -/
theorem foldl_scanLine_filter (ks : List Str) (m : List (Str × Str))
    (lines : List Str) :
    lines.foldl (scanLine ks) m =
      (lines.filter (fun l => !isComment l)).foldl (scanLine ks) m := by
  induction lines generalizing m with
  | nil => rfl
  | cons l ls ih =>
      by_cases hc : isComment l
      · have hstep : scanLine ks m l = m := by unfold scanLine; simp [hc]
        rw [List.foldl_cons, hstep, List.filter_cons, ih]
        simp [hc]
      · rw [List.foldl_cons, List.filter_cons]
        simp only [hc, Bool.not_false, if_pos]
        rw [List.foldl_cons, ih]

/-! ### Write-mode lemmas -/

/-- A line matching no pending key passes through the inner write loop
unchanged, consuming nothing. -/
theorem applyLine_of_nomatch (line : Str) (ws : List (Str × Str))
    (h : ∀ q ∈ ws, keyOf line ≠ some q.1) :
    applyLine line ws = (line, ws) := by
  induction ws with
  | nil => rfl
  | cons q ws ih =>
      have hq : lineHasKey line q.1 = none :=
        lineHasKey_eq_none_iff.mpr (h q (List.mem_cons_self q ws))
      have htail := ih (fun r hr => h r (List.mem_cons_of_mem _ hr))
      simp only [applyLine, hq, htail]

/-- The pending pairs left after one line are a sublist of the input. -/
theorem applyLine_snd_sublist (line : Str) (ws : List (Str × Str)) :
    List.Sublist (applyLine line ws).2 ws := by
  induction ws generalizing line with
  | nil => simp [applyLine]
  | cons q ws ih =>
      simp only [applyLine]
      cases h : lineHasKey line q.1 with
      | some p => exact (ih (toLine q)).trans (List.sublist_cons_self q ws)
      | none => exact List.cons_sublist_cons.mpr (ih line)

/-- A line whose key is the pending pair `(k, v)` is replaced by `k=v`, and
exactly that pair is consumed — provided `k` is a good key with a non-empty
value, so that the freshly written line matches no later pending key. -/
theorem applyLine_of_match (line : Str) (k v : Str) (w1 w2 : List (Str × Str))
    (hmatch : keyOf line = some k) (hk : goodKey k) (hv : v ≠ [])
    (h1 : ∀ q ∈ w1, q.1 ≠ k) (h2 : ∀ q ∈ w2, q.1 ≠ k) :
    applyLine line (w1 ++ (k, v) :: w2) = (toLine (k, v), w1 ++ w2) := by
  induction w1 with
  | nil =>
      obtain ⟨p, hp⟩ := Option.isSome_iff_exists.mp (lineHasKey_isSome_iff.mpr hmatch)
      simp only [List.nil_append, applyLine, hp]
      exact applyLine_of_nomatch _ _ (fun q hq e => by
        rw [keyOf_toLine hk hv] at e
        exact h2 q hq (Option.some.inj e).symm)
  | cons q w1 ih =>
      have hq : lineHasKey line q.1 = none := by
        rw [lineHasKey_eq_none_iff, hmatch]
        intro e
        exact h1 q (List.mem_cons_self q w1) (Option.some.inj e).symm
      have htail := ih (fun r hr => h1 r (List.mem_cons_of_mem _ hr))
      simp only [List.cons_append, applyLine, List.append_eq, hq, htail]

/-- A well-formed pending write list: keys are good, values non-empty,
keys pairwise distinct. -/
def GoodWS (ws : List (Str × Str)) : Prop :=
  (∀ q ∈ ws, goodKey q.1 ∧ q.2 ≠ []) ∧ (ws.map Prod.fst).Nodup

instance (ws : List (Str × Str)) : Decidable (GoodWS ws) :=
  inferInstanceAs (Decidable (_ ∧ _))

theorem GoodWS.sublist {ws ws' : List (Str × Str)} (h : List.Sublist ws' ws)
    (hg : GoodWS ws) : GoodWS ws' :=
  ⟨fun q hq => hg.1 q (h.subset hq),
   List.Nodup.sublist (List.Sublist.map Prod.fst h) hg.2⟩

/-- Re-running the inner write loop on its own output with the original
pending list reproduces the output: the rewritten line carries exactly the
consumed key and is rewritten to itself again. -/
theorem applyLine_idem (line : Str) (ws : List (Str × Str)) (hg : GoodWS ws) :
    applyLine (applyLine line ws).1 ws = applyLine line ws := by
  by_cases hex : ∃ q ∈ ws, keyOf line = some q.1
  · obtain ⟨q, hq, hkey⟩ := hex
    obtain ⟨w1, w2, rfl⟩ := List.append_of_mem hq
    have hnd := hg.2
    rw [List.map_append, List.map_cons] at hnd
    obtain ⟨hn1, hn2, hdisj⟩ := List.nodup_append.mp hnd
    have hqmem : q.1 ∈ q.1 :: w2.map Prod.fst := List.mem_cons_self _ _
    have h1 : ∀ r ∈ w1, r.1 ≠ q.1 := fun r hr e =>
      hdisj (e ▸ List.mem_map_of_mem Prod.fst hr) hqmem
    have h2 : ∀ r ∈ w2, r.1 ≠ q.1 := fun r hr e =>
      (List.nodup_cons.mp hn2).1 (e ▸ List.mem_map_of_mem Prod.fst hr)
    have hgq := hg.1 q (by simp)
    have hm := applyLine_of_match line q.1 q.2 w1 w2 hkey hgq.1 hgq.2 h1 h2
    rw [hm]
    exact applyLine_of_match (toLine (q.1, q.2)) q.1 q.2 w1 w2
      (keyOf_toLine hgq.1 hgq.2) hgq.1 hgq.2 h1 h2
  · push_neg at hex
    rw [applyLine_of_nomatch line ws hex]
    exact applyLine_of_nomatch line ws hex

theorem writeLines_snd_sublist (lines : List Str) (ws : List (Str × Str)) :
    List.Sublist (writeLines lines ws).2 ws := by
  induction lines generalizing ws with
  | nil => simp [writeLines]
  | cons l ls ih =>
      simp only [writeLines]
      exact (ih _).trans (applyLine_snd_sublist l ws)

theorem writeLines_append (as bs : List Str) (ws : List (Str × Str)) :
    writeLines (as ++ bs) ws =
      ((writeLines as ws).1 ++ (writeLines bs (writeLines as ws).2).1,
       (writeLines bs (writeLines as ws).2).2) := by
  induction as generalizing ws with
  | nil => simp [writeLines]
  | cons a as ih =>
      simp only [List.cons_append, writeLines, List.append_eq, ih, List.nil_append]

/-- Re-running the outer write loop on its own line output with the full
original pending list leaves the lines unchanged and consumes the same
pairs. -/
theorem writeLines_stable (lines : List Str) (ws : List (Str × Str))
    (hg : GoodWS ws) :
    writeLines (writeLines lines ws).1 ws = writeLines lines ws := by
  induction lines generalizing ws with
  | nil => rfl
  | cons l ls ih =>
      have hgr : GoodWS (applyLine l ws).2 :=
        GoodWS.sublist (applyLine_snd_sublist l ws) hg
      simp only [writeLines, applyLine_idem l ws hg, ih _ hgr]

/-- Scanning the appended `key=value` lines against their own pending list
rewrites each to itself and consumes everything. -/
theorem writeLines_selfmap (ws : List (Str × Str)) (hg : GoodWS ws) :
    writeLines (ws.map toLine) ws = (ws.map toLine, []) := by
  induction ws with
  | nil => rfl
  | cons q rest ih =>
      have hgq := hg.1 q (List.mem_cons_self q rest)
      have hnd := hg.2
      rw [List.map_cons] at hnd
      have hq1 : q.1 ∉ rest.map Prod.fst := (List.nodup_cons.mp hnd).1
      have h2 : ∀ r ∈ rest, r.1 ≠ q.1 := fun r hr e =>
        hq1 (e ▸ List.mem_map_of_mem Prod.fst hr)
      have happ : applyLine (toLine q) (q :: rest) = (toLine q, rest) := by
        have hm := applyLine_of_match (toLine q) q.1 q.2 [] rest
          (keyOf_toLine hgq.1 hgq.2) hgq.1 hgq.2 (by simp) h2
        simpa using hm
      have hrest : GoodWS rest :=
        GoodWS.sublist (List.sublist_cons_self q rest) hg
      simp only [List.map_cons, writeLines, happ, ih hrest]

/-- Pass-through for the line-rewriting phase: lines satisfying a predicate
that excludes every possible match survive in order and unchanged. -/
theorem writeLines_filter_sublist (P : Str → Bool) (ws0 : List (Str × Str))
    (hP : ∀ l, P l = true → ∀ q ∈ ws0, keyOf l ≠ some q.1) :
    ∀ (lines : List Str) (ws : List (Str × Str)), List.Sublist ws ws0 →
      List.Sublist (lines.filter P) (writeLines lines ws).1 := by
  intro lines
  induction lines with
  | nil => intro ws _; simp [writeLines]
  | cons l ls ih =>
      intro ws hws
      simp only [writeLines, List.filter_cons]
      by_cases hPl : P l = true
      · have hnom : applyLine l ws = (l, ws) :=
          applyLine_of_nomatch l ws (fun q hq => hP l hPl q (hws.subset hq))
        rw [hnom]
        simp only [hPl, if_pos]
        exact List.cons_sublist_cons.mpr (ih ws hws)
      · simp only [hPl, if_neg, Bool.false_eq_true, not_false_eq_true]
        exact List.Sublist.cons _
          (ih _ ((applyLine_snd_sublist l ws).trans hws))

/-! ### Delete-mode lemmas -/

theorem removeKey_eq_filter (lines : List Str) (k : Str) :
    removeKey lines k = lines.filter (fun l => (lineHasKey l k).isNone) := by
  induction lines with
  | nil => rfl
  | cons l ls ih =>
      simp only [removeKey, List.filter_cons]
      cases h : lineHasKey l k <;> simp [h, ih]

theorem foldl_removeKey_eq_filter (ks : List Str) (lines : List Str) :
    ks.foldl removeKey lines =
      lines.filter (fun l => ks.all (fun k => (lineHasKey l k).isNone)) := by
  induction ks generalizing lines with
  | nil => simp
  | cons k ks ih =>
      rw [List.foldl_cons, removeKey_eq_filter, ih, List.filter_filter]
      exact List.filter_congr (fun l _ => by simp [List.all_cons, Bool.and_comm])

theorem mem_dedupAux_or (x cur : Str) (ks : List Str) :
    x ∈ dedupAux cur ks ∨ x = cur ↔ x ∈ ks ∨ x = cur := by
  induction ks generalizing cur with
  | nil => simp [dedupAux]
  | cons k ks ih =>
      by_cases hk : k = cur
      · subst hk
        have hd : dedupAux k (k :: ks) = dedupAux k ks := by simp [dedupAux]
        rw [hd, ih k, List.mem_cons]
        tauto
      · simp only [dedupAux, if_neg hk, List.mem_cons]
        have h2 := ih k
        tauto

theorem mem_dedupRuns {x : Str} {ks : List Str} :
    x ∈ dedupRuns ks ↔ x ∈ ks := by
  cases ks with
  | nil => simp [dedupRuns]
  | cons k ks =>
      simp only [dedupRuns, List.mem_cons]
      have h := mem_dedupAux_or x k ks
      tauto

theorem all_dedupRuns (ks : List Str) (p : Str → Bool) :
    (dedupRuns ks).all p = ks.all p := by
  rw [Bool.eq_iff_iff]
  simp only [List.all_eq_true]
  exact ⟨fun h x hx => h x (mem_dedupRuns.mpr hx),
         fun h x hx => h x (mem_dedupRuns.mp hx)⟩

/-- Delete mode keeps exactly the lines matching none of the keys, in
order. -/
theorem applyDelete_eq_filter (lines ks : List Str) :
    applyDelete lines ks =
      lines.filter (fun l => ks.all (fun k => (lineHasKey l k).isNone)) := by
  unfold applyDelete
  rw [foldl_removeKey_eq_filter]
  exact List.filter_congr (fun l _ => all_dedupRuns ks _)

theorem countP_not_eq {α : Type} (p : α → Bool) (l : List α) :
    l.countP (fun a => !(p a)) = l.length - l.countP p := by
  induction l with
  | nil => rfl
  | cons a l ih =>
      have hle := List.countP_le_length (p := p) (l := l)
      rw [List.countP_cons, List.countP_cons, ih, List.length_cons]
      by_cases h : p a = true
      · simp [h]
      · simp [h]
        omega

theorem all_isNone_eq_not_any (l : Str) (ks : List Str) :
    ks.all (fun k => (lineHasKey l k).isNone) =
      !(ks.any (fun k => (lineHasKey l k).isSome)) := by
  induction ks with
  | nil => rfl
  | cons k ks ih =>
      rw [List.all_cons, List.any_cons, Bool.not_or, ih]
      cases lineHasKey l k <;> rfl

/-! ### Run-collapsing (`std::list::unique`) lemmas -/

theorem collapseAux_sublist (cur : Str) (ws : List (Str × Str)) :
    List.Sublist (collapseAux cur ws) ws := by
  induction ws generalizing cur with
  | nil => simp [collapseAux]
  | cons q ws ih =>
      simp only [collapseAux]
      by_cases h : q.1 = cur
      · rw [if_pos h]
        exact (ih cur).trans (List.sublist_cons_self q ws)
      · rw [if_neg h]
        exact List.cons_sublist_cons.mpr (ih q.1)

theorem collapseRuns_sublist (ws : List (Str × Str)) :
    List.Sublist (collapseRuns ws) ws := by
  cases ws with
  | nil => simp [collapseRuns]
  | cons q ws => exact List.cons_sublist_cons.mpr (collapseAux_sublist q.1 ws)

theorem collapseAux_head_ne (cur : Str) (ws : List (Str × Str)) :
    ∀ q ∈ (collapseAux cur ws).head?, q.1 ≠ cur := by
  induction ws generalizing cur with
  | nil => simp [collapseAux]
  | cons q ws ih =>
      simp only [collapseAux]
      by_cases h : q.1 = cur
      · rw [if_pos h]
        exact ih cur
      · rw [if_neg h]
        intro r hr
        have hrq : q = r := by simpa using hr
        subst hrq
        exact h

theorem collapseAux_chain (cur : Str) (ws : List (Str × Str)) :
    List.Chain' (fun a b : Str × Str => a.1 ≠ b.1) (collapseAux cur ws) := by
  induction ws generalizing cur with
  | nil => simp [collapseAux]
  | cons q ws ih =>
      simp only [collapseAux]
      by_cases h : q.1 = cur
      · rw [if_pos h]
        exact ih cur
      · rw [if_neg h]
        exact List.chain'_cons'.mpr
          ⟨fun b hb e => collapseAux_head_ne q.1 ws b hb e.symm, ih q.1⟩

theorem collapseRuns_chain (ws : List (Str × Str)) :
    List.Chain' (fun a b : Str × Str => a.1 ≠ b.1) (collapseRuns ws) := by
  cases ws with
  | nil => simp [collapseRuns]
  | cons q ws =>
      exact List.chain'_cons'.mpr
        ⟨fun b hb e => collapseAux_head_ne q.1 ws b hb e.symm, collapseAux_chain q.1 ws⟩

theorem collapseAux_of_nodup (cur : Str) (ws : List (Str × Str))
    (h1 : cur ∉ ws.map Prod.fst) (h2 : (ws.map Prod.fst).Nodup) :
    collapseAux cur ws = ws := by
  induction ws generalizing cur with
  | nil => rfl
  | cons q ws ih =>
      rw [List.map_cons] at h1 h2
      have hne : ¬ q.1 = cur := fun e => h1 (by simp [e])
      obtain ⟨hq, hnd⟩ := List.nodup_cons.mp h2
      simp only [collapseAux, if_neg hne]
      rw [ih q.1 hq hnd]

theorem collapseRuns_of_nodup (ws : List (Str × Str))
    (h : (ws.map Prod.fst).Nodup) : collapseRuns ws = ws := by
  cases ws with
  | nil => rfl
  | cons q ws =>
      rw [List.map_cons] at h
      obtain ⟨hq, hnd⟩ := List.nodup_cons.mp h
      simp only [collapseRuns, collapseAux_of_nodup q.1 ws hq hnd]

theorem collapseRuns_cons_dup (k v1 v2 : Str) (rest : List (Str × Str)) :
    collapseRuns ((k, v1) :: (k, v2) :: rest) = collapseRuns ((k, v1) :: rest) := by
  simp [collapseRuns, collapseAux]

/-- Filter monotonicity as a sublist. -/
theorem filter_sublist_filter_of_imp {α : Type} (p q : α → Bool) (l : List α)
    (h : ∀ a ∈ l, p a = true → q a = true) :
    List.Sublist (l.filter p) (l.filter q) := by
  induction l with
  | nil => simp
  | cons a l ih =>
      have ihl := ih (fun x hx => h x (List.mem_cons_of_mem _ hx))
      simp only [List.filter_cons]
      by_cases hp : p a = true
      · rw [if_pos hp, if_pos (h a (List.mem_cons_self a l) hp)]
        exact List.cons_sublist_cons.mpr ihl
      · rw [if_neg hp]
        by_cases hq : q a = true
        · rw [if_pos hq]
          exact List.Sublist.cons _ ihl
        · rw [if_neg hq]
          exact ihl

/-! ## Claims -/

/-- C1, counterexample: with the lines `a=1` and `a=2` and read key `a`,
the emitted value is `1` — from the FIRST matching line — and not `2` as
"last match in file order wins" demands. -/
theorem c1_last_match_counterexample :
    readMode [['a', '=', '1'], ['a', '=', '2']] [['a']] ≠ [['2']] := by decide

/-- C1, amended: in read mode the value recorded for a requested key is the
trimmed value of the FIRST matching non-comment line in file order;
`std::map::emplace` keeps the existing entry, so a later match never
overwrites an earlier one. -/
theorem c1_read_first_match_wins (lines ks : List Str) (k : Str)
    (hk : k ∈ ks) :
    mapGet (scanLines lines ks) k = (firstValO lines k).getD [] :=
  mapGet_scanLines lines ks k hk

theorem c1_read_first_match_wins_witness :
    (['a'] ∈ [['a']]) ∧
      mapGet (scanLines [['a', '=', '1'], ['a', '=', '2']] [['a']]) ['a'] =
        (firstValO [['a', '=', '1'], ['a', '=', '2']] ['a']).getD [] :=
  ⟨by decide, c1_read_first_match_wins _ _ _ (by decide)⟩

/-- C2, counterexample: with write arguments `a=1 b=2 a=3` the constructed
write set still contains the later duplicate `(a, 3)` — a non-adjacent
duplicate key is NOT discarded (`std::list::unique` compares neighbours
only). -/
theorem c2_first_occurrence_counterexample :
    buildWriteSet [['a', '=', '1'], ['b', '=', '2'], ['a', '=', '3']] =
      some [(['a'], ['1']), (['b'], ['2']), (['a'], ['3'])] ∧
    buildWriteSet [['a', '=', '1'], ['b', '=', '2'], ['a', '=', '3']] ≠
      some [(['a'], ['1']), (['b'], ['2'])] := by decide

/-- C2, amended: the write-set construction collapses only CONSECUTIVE
runs of pairs with equal keys, keeping the first pair of each run: the
result is a subsequence of the input, no two adjacent retained pairs share
a key, an adjacent duplicate is dropped in favour of its predecessor, and
an input with pairwise-distinct keys is returned unchanged — so
non-adjacent duplicates all survive. -/
theorem c2_writeset_collapses_adjacent_runs_only (ws : List (Str × Str)) :
    List.Sublist (collapseRuns ws) ws ∧
    List.Chain' (fun a b : Str × Str => a.1 ≠ b.1) (collapseRuns ws) ∧
    (∀ (k v1 v2 : Str) (rest : List (Str × Str)),
      collapseRuns ((k, v1) :: (k, v2) :: rest) =
        collapseRuns ((k, v1) :: rest)) ∧
    ((ws.map Prod.fst).Nodup → collapseRuns ws = ws) :=
  ⟨collapseRuns_sublist ws, collapseRuns_chain ws,
   fun k v1 v2 rest => collapseRuns_cons_dup k v1 v2 rest,
   collapseRuns_of_nodup ws⟩

theorem c2_writeset_collapses_adjacent_runs_only_witness :
    (([(['a'], ['1']), (['b'], ['2'])].map Prod.fst).Nodup) ∧
      collapseRuns [(['a'], ['1']), (['b'], ['2'])] =
        [(['a'], ['1']), (['b'], ['2'])] :=
  ⟨by decide,
   (c2_writeset_collapses_adjacent_runs_only _).2.2.2 (by decide)⟩

/-- C3, counterexample: the write-set `[(a, "")]` — reachable from the
command line as the argument `a= ` followed by a space, since the value is
trimmed after the raw non-emptiness check — is not idempotent: one write
yields the single line `a=`, which matches no key, so a second write
appends `a=` again. -/
theorem c3_write_idempotent_counterexample :
    applyWrite (applyWrite [] [(['a'], [])]) [(['a'], [])] ≠
      applyWrite [] [(['a'], [])] := by decide

/-- C3, amended: write IS idempotent for every write-set whose keys are
pairwise distinct, non-empty, `trim`-stable and free of `'='`, and whose
values are non-empty — the shape of a well-formed deduplicated command
line whose trimming loses nothing. -/
theorem c3_write_idempotent (lines : List Str) (ws : List (Str × Str))
    (hg : GoodWS ws) :
    applyWrite (applyWrite lines ws) ws = applyWrite lines ws := by
  unfold applyWrite
  rw [writeLines_append, writeLines_stable lines ws hg,
    writeLines_selfmap _ (GoodWS.sublist (writeLines_snd_sublist lines ws) hg)]
  simp

theorem c3_write_idempotent_witness :
    GoodWS [(['a'], ['1'])] ∧
      applyWrite (applyWrite [['b', '=', '2']] [(['a'], ['1'])])
          [(['a'], ['1'])] =
        applyWrite [['b', '=', '2']] [(['a'], ['1'])] :=
  ⟨by decide, c3_write_idempotent _ _ (by decide)⟩

/-- C4: pass-through invariant — the input lines matching none of the
requested keys survive a write and a delete byte-identically and in their
original relative order (they form a subsequence of the result). -/
theorem c4_passthrough_invariant (lines : List Str) (ws : List (Str × Str))
    (dks : List Str) :
    List.Sublist
      (lines.filter (fun l => ws.all (fun q => (lineHasKey l q.1).isNone)))
      (applyWrite lines ws) ∧
    List.Sublist
      (lines.filter (fun l => dks.all (fun k => (lineHasKey l k).isNone)))
      (applyDelete lines dks) := by
  constructor
  · have hP : ∀ l, (ws.all (fun q => (lineHasKey l q.1).isNone)) = true →
        ∀ q ∈ ws, keyOf l ≠ some q.1 := by
      intro l hl q hq
      have h1 := List.all_eq_true.mp hl q hq
      rw [Option.isNone_iff_eq_none] at h1
      exact lineHasKey_eq_none_iff.mp h1
    exact (writeLines_filter_sublist _ ws hP lines ws
      (List.Sublist.refl ws)).trans (List.sublist_append_left _ _)
  · rw [applyDelete_eq_filter]

/-- C5: delete is exhaustive — the result keeps exactly the lines that
match none of the requested keys, in their original order, and the length
drops by exactly the number of matching lines. -/
theorem c5_delete_exhaustive (lines ks : List Str) :
    applyDelete lines ks =
      lines.filter (fun l => !(ks.any (fun k => (lineHasKey l k).isSome))) ∧
    (applyDelete lines ks).length =
      lines.length -
        lines.countP (fun l => ks.any (fun k => (lineHasKey l k).isSome)) := by
  have he : applyDelete lines ks =
      lines.filter (fun l => !(ks.any (fun k => (lineHasKey l k).isSome))) := by
    rw [applyDelete_eq_filter]
    exact List.filter_congr (fun l _ => all_isNone_eq_not_any l ks)
  refine ⟨he, ?_⟩
  rw [he, ← List.countP_eq_length_filter, countP_not_eq]

/-- C6, the code at the failing input: when the input file fails to open,
`main` prints a diagnostic but falls through to `return 0` — the exit
status is `0` in both read and write mode, not non-zero as specified.
Only the failure to open the OUTPUT file yields the exit status `-1`. -/
theorem c6_exit_zero_on_input_open_failure :
    (fileStage ModifyKeysMode.read [['a']] [] none true).exitCode = 0 ∧
    (fileStage ModifyKeysMode.write [] [(['a'], ['1'])] none true).exitCode
      = 0 ∧
    (fileStage ModifyKeysMode.write [] [(['a'], ['1'])] (some [])
      false).exitCode = -1 :=
  ⟨rfl, rfl, rfl⟩

/-- C7, counterexample: in delete mode the comment line `#a=1` IS removed
when the requested key is `#a`: the write/delete paths never test for
comment lines, and `lineHasKey` matches the trimmed prefix `#a`. -/
theorem c7_comment_immunity_counterexample :
    applyDelete [['#', 'a', '=', '1']] [['#', 'a']] ≠ [['#', 'a', '=', '1']] := by
  decide

/-- C7, amended: comment immunity holds for every requested key that does
not itself begin with `'#'`: a comment line matches no such key, so in
write and delete mode all comment lines pass through unchanged and in
order; in read mode comment lines are skipped for EVERY key.  A key
beginning with `'#'` can, however, match and rewrite or delete a comment
line in write/delete mode. -/
theorem c7_comment_immunity_for_nonhash_keys :
    (∀ line k : Str, isComment line = true → k.head? ≠ some '#' →
        lineHasKey line k = none) ∧
    (∀ (lines : List Str) (ws : List (Str × Str)),
        (∀ q ∈ ws, q.1.head? ≠ some '#') →
        List.Sublist (lines.filter isComment) (applyWrite lines ws)) ∧
    (∀ lines ks : List Str, (∀ k ∈ ks, k.head? ≠ some '#') →
        List.Sublist (lines.filter isComment) (applyDelete lines ks)) ∧
    (∀ lines ks : List Str,
        readMode lines ks =
          readMode (lines.filter (fun l => !isComment l)) ks) := by
  refine ⟨fun line k hc hk => lineHasKey_comment hc hk, ?_, ?_, ?_⟩
  · intro lines ws hws
    have hP : ∀ l, isComment l = true → ∀ q ∈ ws, keyOf l ≠ some q.1 :=
      fun l hl q hq e => hws q hq (keyOf_comment_head hl e)
    exact (writeLines_filter_sublist isComment ws hP lines ws
      (List.Sublist.refl ws)).trans (List.sublist_append_left _ _)
  · intro lines ks hks
    rw [applyDelete_eq_filter]
    refine filter_sublist_filter_of_imp _ _ _ (fun l _ hl => ?_)
    exact List.all_eq_true.mpr (fun k hk => by
      rw [Option.isNone_iff_eq_none]
      exact lineHasKey_comment hl (hks k hk))
  · intro lines ks
    unfold readMode scanLines
    rw [foldl_scanLine_filter]

theorem c7_comment_immunity_for_nonhash_keys_witness :
    (isComment ['#', 'a', '=', '1'] = true) ∧
    ((['a'] : Str).head? ≠ some '#') ∧
      lineHasKey ['#', 'a', '=', '1'] ['a'] = none :=
  ⟨rfl, by decide,
   c7_comment_immunity_for_nonhash_keys.1 _ _ rfl (by decide)⟩

/-- C8, counterexample: the read key list is NOT deduplicated — requesting
`a a` against the single line `a=1` emits TWO output lines although there
is one distinct requested key. -/
theorem c8_readset_dedup_counterexample :
    (readMode [['a', '=', '1']] [['a'], ['a']]).length = 2 ∧
    ([['a'], ['a']] : List Str).dedup.length = 1 := by decide

/-- C8, amended: the read key list is used verbatim, duplicates included:
the primary output has exactly one line per requested key OCCURRENCE, in
command-line order, each being the first-match value of that key —
deduplication happens only in delete mode. -/
theorem c8_read_output_per_occurrence (lines ks : List Str) :
    readMode lines ks = ks.map (fun k => (firstValO lines k).getD []) ∧
    (readMode lines ks).length = ks.length := by
  have h : readMode lines ks = ks.map (fun k => (firstValO lines k).getD []) := by
    unfold readMode
    exact List.map_congr_left (fun k hk => mapGet_scanLines lines ks k hk)
  exact ⟨h, by rw [h, List.length_map]⟩

/-- C9: reads are total — a requested key that matches no line of the file
produces the empty value at its requested output position, and no error
arises (the read pipeline is a total function). -/
theorem c9_reads_total (lines ks : List Str) (i : Nat) (hi : i < ks.length)
    (hnone : ∀ l ∈ lines, lineHasKey l (ks.getD i []) = none) :
    (readMode lines ks).getD i [] = [] := by
  have hksd : ks.getD i [] = ks[i] := by
    rw [List.getD_eq_getElem?_getD, List.getElem?_eq_getElem hi]
    rfl
  have hmem : ks[i] ∈ ks := List.getElem_mem hi
  have hnone' : firstValO lines ks[i] = none :=
    firstValO_eq_none (fun l hl => hksd ▸ hnone l hl)
  unfold readMode
  rw [List.getD_eq_getElem?_getD, List.getElem?_map,
    List.getElem?_eq_getElem hi]
  simp [mapGet_scanLines lines ks _ hmem, hnone']

theorem c9_reads_total_witness :
    (0 < ([['a']] : List Str).length) ∧
    (∀ l ∈ ([['b', '=', '2']] : List Str),
        lineHasKey l (([['a']] : List Str).getD 0 []) = none) ∧
      (readMode [['b', '=', '2']] [['a']]).getD 0 [] = [] :=
  ⟨by decide, by decide, c9_reads_total _ _ 0 (by decide) (by decide)⟩

/-- C10: atomicity on input failure — when the input file cannot be opened
the output stream is never constructed and nothing is written back, for
every mode, key set and write set: the failing branch at line 204 skips
the whole `else` block containing the output `ofstream` of line 236. -/
theorem c10_no_output_on_input_failure (mode : ModifyKeysMode)
    (keysRD : List Str) (ws : List (Str × Str)) (outOk : Bool) :
    (fileStage mode keysRD ws none outOk).outputAttempted = false ∧
    (fileStage mode keysRD ws none outOk).written = none :=
  ⟨rfl, rfl⟩

end OFP
